import Mathlib

/-!
# Thesaurizer: tokenizer, dispatcher and reassembler

A shallow embedding of `thesaurizer/thesaurizer.go` (`splitPhrase`, `isPunctuation`,
`GetSynonyms`) and the properties of the phrase-rewriting pipeline.

Modelling conventions:

* A Go `string` is modelled as the list of its runes (`List Char`); the input is taken to be
  valid UTF-8, which is what the regexp engine and `strings.ContainsAny` decode rune by rune.
* `getSynonym` (one HTTP round trip) is a parameter `getSynonym : Str → Option Str`, where
  `none` stands for `err != nil`.
* Each goroutine of the fan-out is modelled by the value it sends on `resultChan` together with
  the list of arguments it passed to `getSynonym`.  The order in which the buffered channel
  hands the values to the collecting loop is a parameter (`Schedule`).
-/

namespace Thesaurizer

/-- A Go string, as its sequence of runes. -/
abbrev Str := List Char

/-! ## Character classes of the regular expression -/

/-- Perl class `\w` of Go's `regexp` (RE2 syntax): `[0-9A-Za-z_]`, ASCII only. -/
def isWordChar (c : Char) : Bool :=
  ('0' ≤ c && c ≤ '9') || ('A' ≤ c && c ≤ 'Z') || c == '_' || ('a' ≤ c && c ≤ 'z')

/-- Perl class `\s` of Go's `regexp` (RE2 syntax): `[\t\n\f\r ]`, ASCII only. -/
def isSpaceChar (c : Char) : Bool :=
  c == '\t' || c == '\n' || c == Char.ofNat 12 || c == '\r' || c == ' '

/-- The negated class `[^\s\w]`. -/
def isPunctChar (c : Char) : Bool := !isSpaceChar c && !isWordChar c

/-! ## `splitPhrase`: `regexp.MustCompile("\w+|[^\s\w]+").FindAllString(phrase, -1)` -/

/-- Greedy `cls+` anchored at the start of `s`: the longest non-empty prefix made of `cls`
characters, with the remaining input. -/
def matchPlus (cls : Char → Bool) (s : Str) : Option (Str × Str) :=
  match s.span cls with
  | ([], _) => none
  | (m, rest) => some (m, rest)

/-- The alternation `\w+|[^\s\w]+` anchored at the start of `s`; the left alternative is
preferred (leftmost-first semantics). -/
def matchAt (s : Str) : Option (Str × Str) :=
  match matchPlus isWordChar s with
  | some r => some r
  | none => matchPlus isPunctChar s

/-- The scanning loop of `FindAllString`: take the match at the current position if there is
one and continue after it, otherwise move one rune forward.  `fuel` bounds the number of
iterations. -/
def findAll : Nat → Str → List Str
  | 0, _ => []
  | fuel + 1, s =>
    match matchAt s with
    | some (m, rest) => m :: findAll fuel rest
    | none =>
      match s with
      | [] => []
      | _ :: t => findAll fuel t

/-- Go `splitPhrase`.  Every iteration of the scan consumes at least one rune, so
`phrase.length + 1` iterations are enough (`findAll_fuel`). -/
def splitPhrase (phrase : Str) : List Str := findAll (phrase.length + 1) phrase

/-! ## `isPunctuation` -/

/-- Go constant `punctuations`. -/
def punctuations : Str := "!\"#$%&'()*+,-./:;<=>?@[\\]^_`\x7b|\x7d~".toList

/-- Go `isPunctuation`: `strings.ContainsAny(word, punctuations)`. -/
def isPunctuation (word : Str) : Bool := word.any (fun c => punctuations.contains c)

/-- The string literal `"'"`. -/
def apostrophe : Str := "'".toList

/-! ## `GetSynonyms` -/

/-- The external lookup `getSynonym`: `some synonym` on success, `none` when `err != nil`. -/
abbrev Resolver := Str → Option Str

/-- The anonymous struct sent on `resultChan`. -/
structure IndexedResult where
  index : Nat
  word : Str
deriving DecidableEq

/-- What one goroutine of the fan-out does: the value it sends on `resultChan` and the
arguments of the `getSynonym` calls it makes. -/
structure WorkerRun where
  sent : IndexedResult
  calls : List Str
deriving DecidableEq

/-- Body of the goroutine `go func(index int, w string)`. -/
def worker (getSynonym : Resolver) (index : Nat) (w : Str) : WorkerRun :=
  if isPunctuation w || w == apostrophe then
    ⟨⟨index, w⟩, []⟩
  else
    match getSynonym w with
    | none => ⟨⟨index, w⟩, [w]⟩
    | some synonym => ⟨⟨index, synonym⟩, [w]⟩

/-- The loop `for i, word := range words`, one goroutine per token, numbered from `i`. -/
def fanOut (getSynonym : Resolver) : Nat → List Str → List WorkerRun
  | _, [] => []
  | i, w :: ws => worker getSynonym i w :: fanOut getSynonym (i + 1) ws

/-- The values sent on `resultChan`, listed in token order. -/
def sentResults (getSynonym : Resolver) (words : List Str) : List IndexedResult :=
  (fanOut getSynonym 0 words).map (fun run => run.sent)

/-- The order in which the channel delivers the sent values: some rearrangement of them. -/
structure Schedule where
  arrive : List IndexedResult → List IndexedResult
  perm : ∀ l, (arrive l).Perm l

/-- The goroutines deliver in token order. -/
def Schedule.inOrder : Schedule := ⟨id, fun l => List.Perm.refl l⟩

/-- The goroutines deliver in reverse token order. -/
def Schedule.reversed : Schedule := ⟨List.reverse, fun l => List.reverse_perm l⟩

/-- The collecting loop: `results := make([]string, n)` and then
`results[result.index] = result.word` for every value received. -/
def collect (n : Nat) (arrivals : List IndexedResult) : List Str :=
  arrivals.foldl (fun results result => results.set result.index result.word)
    (List.replicate n [])

/-- One iteration of the loop that builds the final string; the state is the builder's
content and `flag`. -/
def appendResult (st : Str × Bool) (word : Str) : Str × Bool :=
  if word == apostrophe then
    (st.1 ++ apostrophe, true)
  else if isPunctuation word then
    (st.1 ++ word, st.2)
  else
    ((if !st.2 then st.1 ++ [' '] else st.1) ++ word, false)

/-- The loop `for _, word := range results`, started with an empty builder and `flag := true`. -/
def reassemble (results : List Str) : Str :=
  (results.foldl appendResult ([], true)).1

/-- The slice `results` once the collecting loop has finished. -/
def indexedResults (getSynonym : Resolver) (sched : Schedule) (phrase : Str) : List Str :=
  let words := splitPhrase phrase
  collect words.length (sched.arrive (sentResults getSynonym words))

/-- Go `GetSynonyms`. -/
def GetSynonyms (getSynonym : Resolver) (sched : Schedule) (phrase : Str) : Str :=
  reassemble (indexedResults getSynonym sched phrase)

/-! ## Vocabulary of the specification -/

/-- The three kinds of rune the tokenizer distinguishes. -/
inductive CharClass where
  | space
  | word
  | punct
deriving DecidableEq

/-- The kind of a rune: whitespace (`\s`), word character (`\w`), or anything else. -/
def classOf (c : Char) : CharClass :=
  if isSpaceChar c then CharClass.space
  else if isWordChar c then CharClass.word
  else CharClass.punct

/-- The phrase with its whitespace removed. -/
def stripSpace (s : Str) : Str := s.filter (fun c => !isSpaceChar c)

/-- A word token: every rune is a word character. -/
def isWordToken (t : Str) : Prop := ∀ c ∈ t, classOf c = CharClass.word

/-- A punctuation token: every rune is neither whitespace nor a word character. -/
def isPunctToken (t : Str) : Prop := ∀ c ∈ t, classOf c = CharClass.punct

/-- The resolver that answers `W` for `W` and agrees with `r` elsewhere. -/
def answerSelf (r : Resolver) (W : Str) : Resolver :=
  fun w => if w = W then some W else r w

/-- Letters and digits: the word characters other than the underscore. -/
def isLetterOrDigit (c : Char) : Bool :=
  ('0' ≤ c && c ≤ '9') || ('A' ≤ c && c ≤ 'Z') || ('a' ≤ c && c ≤ 'z')

instance (t : Str) : Decidable (isWordToken t) := by unfold isWordToken; infer_instance

instance (t : Str) : Decidable (isPunctToken t) := by unfold isPunctToken; infer_instance

/-! ## Auxiliary notions for the proofs -/

/-- The text a goroutine reports for the token `w` (it does not depend on the index). -/
def outcome (getSynonym : Resolver) (w : Str) : Str := (worker getSynonym 0 w).sent.word

/-- `t` is a non-empty run of `K` characters that cannot be extended into `rest`. -/
structure Run (K : Char → Bool) (t rest : Str) : Prop where
  nonempty : t ≠ []
  all : ∀ c ∈ t, K c = true
  stop : ∀ c, rest.head? = some c → K c = false

/-- `Layout s ts`: the input `s` read from left to right is whitespace and the maximal runs
`ts`, in this order. -/
inductive Layout : Str → List Str → Prop
  | nil : Layout [] []
  | space (c : Char) (s : Str) (ts : List Str) :
      isSpaceChar c = true → Layout s ts → Layout (c :: s) ts
  | run (t rest : Str) (ts : List Str) :
      (Run isWordChar t rest ∨ Run isPunctChar t rest) → Layout rest ts →
      Layout (t ++ rest) (t :: ts)

/-- The rune before `s` (the last of `p`) and the first rune of `s` do not belong to one
non-whitespace class: a run starting `s` would not continue a run ending `p`. -/
def Boundary (p s : Str) : Prop :=
  ∀ a b, p.getLast? = some a → s.head? = some b → classOf b ≠ CharClass.space →
    classOf a ≠ classOf b

/-! ## Resolvers of the scenarios -/

/-- A resolver that knows `good` and fails on everything else. -/
def goodOnly : Resolver := fun w => if w = "good".toList then some "fine".toList else none

/-- The resolver of the scenario `Hello, world!`. -/
def helloWorld : Resolver := fun w =>
  if w = "Hello".toList then some "Greetings".toList
  else if w = "world".toList then some "earth".toList
  else none

/-- Every word resolves to itself. -/
def selfResolver : Resolver := fun w => some w

/-- Only `can` has a synonym, `may`; every other word resolves to itself. -/
def canMay : Resolver := fun w => if w = "can".toList then some "may".toList else some w

/-! ## The tokenizer -/

theorem takeWhile_run {K : Char → Bool} {t rest : Str} (hall : ∀ c ∈ t, K c = true)
    (hstop : ∀ c, rest.head? = some c → K c = false) :
    (t ++ rest).takeWhile K = t ∧ (t ++ rest).dropWhile K = rest := by
  induction t with
  | nil =>
    cases rest with
    | nil => simp
    | cons c cs =>
      have hc : K c = false := hstop c rfl
      simp [List.takeWhile_cons, List.dropWhile_cons, hc]
  | cons a as ih =>
    have ha : K a = true := hall a (List.mem_cons_self a as)
    have ih2 := ih (fun c hc => hall c (List.mem_cons_of_mem a hc))
    simp [List.takeWhile_cons, List.dropWhile_cons, ha, ih2.1, ih2.2]

theorem head_dropWhile_stop (K : Char → Bool) (s : Str) :
    ∀ c, (s.dropWhile K).head? = some c → K c = false := by
  induction s with
  | nil => intro c h; simp at h
  | cons a as ih =>
    intro c h
    by_cases ha : K a = true
    · rw [List.dropWhile_cons_of_pos ha] at h
      exact ih c h
    · rw [List.dropWhile_cons_of_neg ha] at h
      simp at h
      subst h
      simpa using ha

theorem matchPlus_some {K : Char → Bool} {s m rest : Str}
    (h : matchPlus K s = some (m, rest)) : s = m ++ rest ∧ Run K m rest := by
  unfold matchPlus at h
  rw [List.span_eq_take_drop] at h
  have hsplit : s.takeWhile K ++ s.dropWhile K = s := List.takeWhile_append_dropWhile K s
  cases htw : s.takeWhile K with
  | nil => rw [htw] at h; simp at h
  | cons a as =>
    rw [htw] at h
    simp only [Option.some.injEq, Prod.mk.injEq] at h
    obtain ⟨h1, h2⟩ := h
    subst h1
    refine ⟨?_, ?_, ?_, ?_⟩
    · rw [← h2, ← htw]; exact hsplit.symm
    · simp
    · intro c hc
      rw [← htw] at hc
      exact List.mem_takeWhile_imp hc
    · rw [← h2]; exact head_dropWhile_stop K s

theorem matchPlus_none {K : Char → Bool} {s : Str} (h : matchPlus K s = none) :
    ∀ c, s.head? = some c → K c = false := by
  unfold matchPlus at h
  rw [List.span_eq_take_drop] at h
  cases htw : s.takeWhile K with
  | nil =>
    intro c hc
    cases s with
    | nil => simp at hc
    | cons a as =>
      simp at hc
      subst hc
      by_cases ha : K a = true
      · rw [List.takeWhile_cons_of_pos ha] at htw; simp at htw
      · simpa using ha
  | cons a as => rw [htw] at h; simp at h

theorem matchPlus_run {K : Char → Bool} {t rest : Str} (h : Run K t rest) :
    matchPlus K (t ++ rest) = some (t, rest) := by
  unfold matchPlus
  rw [List.span_eq_take_drop]
  obtain ⟨h1, h2⟩ := takeWhile_run h.all h.stop
  rw [h1, h2]
  cases t with
  | nil => exact absurd rfl h.nonempty
  | cons a as => rfl

theorem not_word_of_space {c : Char} (h : isSpaceChar c = true) : isWordChar c = false := by
  simp only [isSpaceChar, Bool.or_eq_true, beq_iff_eq] at h
  rcases h with (((h | h) | h) | h) | h <;> subst h <;> decide

theorem not_space_of_word {c : Char} (h : isWordChar c = true) : isSpaceChar c = false := by
  cases hs : isSpaceChar c with
  | false => rfl
  | true => rw [not_word_of_space hs] at h; exact absurd h (by decide)

theorem not_space_of_punct {c : Char} (h : isPunctChar c = true) : isSpaceChar c = false := by
  simp only [isPunctChar, Bool.and_eq_true, Bool.not_eq_true'] at h
  exact h.1

theorem not_word_of_punct {c : Char} (h : isPunctChar c = true) : isWordChar c = false := by
  simp only [isPunctChar, Bool.and_eq_true, Bool.not_eq_true'] at h
  exact h.2

theorem classOf_word_iff (c : Char) : classOf c = CharClass.word ↔ isWordChar c = true := by
  unfold classOf
  cases hw : isWordChar c with
  | true => simp [not_space_of_word hw]
  | false => by_cases hs : isSpaceChar c = true <;> simp [hs]

theorem classOf_punct_iff (c : Char) : classOf c = CharClass.punct ↔ isPunctChar c = true := by
  unfold classOf isPunctChar
  cases hs : isSpaceChar c <;> cases hw : isWordChar c <;> simp

theorem classOf_space_iff (c : Char) : classOf c = CharClass.space ↔ isSpaceChar c = true := by
  unfold classOf
  cases hs : isSpaceChar c <;> cases hw : isWordChar c <;> simp

theorem matchAt_some {s m rest : Str} (h : matchAt s = some (m, rest)) :
    s = m ++ rest ∧ (Run isWordChar m rest ∨ Run isPunctChar m rest) := by
  unfold matchAt at h
  cases hw : matchPlus isWordChar s with
  | some r =>
    rw [hw] at h
    simp only [Option.some.injEq] at h
    subst h
    exact ⟨(matchPlus_some hw).1, Or.inl (matchPlus_some hw).2⟩
  | none =>
    rw [hw] at h
    exact ⟨(matchPlus_some h).1, Or.inr (matchPlus_some h).2⟩

theorem matchAt_none {s : Str} (h : matchAt s = none) :
    ∀ c, s.head? = some c → isSpaceChar c = true := by
  unfold matchAt at h
  cases hw : matchPlus isWordChar s with
  | some r => rw [hw] at h; simp at h
  | none =>
    rw [hw] at h
    intro c hc
    have h1 := matchPlus_none hw c hc
    have h2 := matchPlus_none h c hc
    simp only [isPunctChar, h1] at h2
    simpa using h2

theorem matchAt_space {c : Char} (s : Str) (h : isSpaceChar c = true) :
    matchAt (c :: s) = none := by
  have hw : isWordChar c = false := not_word_of_space h
  have hp : isPunctChar c = false := by simp [isPunctChar, h]
  simp [matchAt, matchPlus, List.span_eq_take_drop, List.takeWhile_cons, hw, hp]

theorem matchAt_word {t rest : Str} (h : Run isWordChar t rest) :
    matchAt (t ++ rest) = some (t, rest) := by
  unfold matchAt
  rw [matchPlus_run h]

theorem matchAt_punct {t rest : Str} (h : Run isPunctChar t rest) :
    matchAt (t ++ rest) = some (t, rest) := by
  unfold matchAt
  have hnone : matchPlus isWordChar (t ++ rest) = none := by
    cases t with
    | nil => exact absurd rfl h.nonempty
    | cons a as =>
      have ha : isWordChar a = false :=
        not_word_of_punct (h.all a (List.mem_cons_self a as))
      simp [matchPlus, List.span_eq_take_drop, List.takeWhile_cons, ha]
  rw [hnone]
  exact matchPlus_run h

theorem matchAt_run {t rest : Str} (h : Run isWordChar t rest ∨ Run isPunctChar t rest) :
    matchAt (t ++ rest) = some (t, rest) :=
  h.elim matchAt_word matchAt_punct

theorem findAll_succ (fuel : Nat) (s : Str) :
    findAll (fuel + 1) s =
      match matchAt s with
      | some (m, rest) => m :: findAll fuel rest
      | none =>
        match s with
        | [] => []
        | _ :: t => findAll fuel t := rfl

theorem findAll_fuel_irrel : ∀ (n m : Nat) (s : Str), s.length < n → s.length < m →
    findAll n s = findAll m s := by
  intro n
  induction n with
  | zero => intro m s h; exact absurd h (Nat.not_lt_zero _)
  | succ n ih =>
    intro m s hn hm
    cases m with
    | zero => exact absurd hm (Nat.not_lt_zero _)
    | succ m =>
      rw [findAll_succ, findAll_succ]
      cases hma : matchAt s with
      | some r =>
        obtain ⟨t, rest⟩ := r
        obtain ⟨hs, hrun⟩ := matchAt_some hma
        have hne : t ≠ [] := hrun.elim (fun h => h.nonempty) (fun h => h.nonempty)
        have hlen : rest.length < s.length := by
          rw [hs, List.length_append]
          have : 0 < t.length := List.length_pos.mpr hne
          omega
        simp only
        rw [ih m rest (by omega) (by omega)]
      | none =>
        cases s with
        | nil => rfl
        | cons c cs =>
          simp only [List.length_cons] at hn hm
          simp only
          exact ih m cs (by omega) (by omega)

/-- More fuel than the length of the input does not change the result: the scan has
finished. -/
theorem findAll_fuel (n : Nat) (s : Str) (h : s.length < n) :
    findAll n s = splitPhrase s :=
  findAll_fuel_irrel n (s.length + 1) s h (Nat.lt_succ_self _)

theorem splitPhrase_nil : splitPhrase [] = [] := rfl

theorem splitPhrase_space {c : Char} (s : Str) (h : isSpaceChar c = true) :
    splitPhrase (c :: s) = splitPhrase s := by
  show findAll ((c :: s).length + 1) (c :: s) = splitPhrase s
  rw [findAll_succ, matchAt_space s h]
  exact findAll_fuel _ s (by simp)

theorem splitPhrase_run {t rest : Str} (h : Run isWordChar t rest ∨ Run isPunctChar t rest) :
    splitPhrase (t ++ rest) = t :: splitPhrase rest := by
  show findAll ((t ++ rest).length + 1) (t ++ rest) = t :: splitPhrase rest
  rw [findAll_succ, matchAt_run h]
  simp only
  rw [findAll_fuel _ rest]
  have hne : t ≠ [] := h.elim (fun h => h.nonempty) (fun h => h.nonempty)
  have : 0 < t.length := List.length_pos.mpr hne
  rw [List.length_append]
  omega

theorem Layout.eq_splitPhrase {s : Str} {ts : List Str} (h : Layout s ts) :
    splitPhrase s = ts := by
  induction h with
  | nil => rfl
  | space c s ts hc _ ih => rw [splitPhrase_space s hc, ih]
  | run t rest ts hrun _ ih => rw [splitPhrase_run hrun, ih]

theorem layout_findAll : ∀ (n : Nat) (s : Str), s.length < n → Layout s (findAll n s) := by
  intro n
  induction n with
  | zero => intro s h; exact absurd h (Nat.not_lt_zero _)
  | succ n ih =>
    intro s hn
    rw [findAll_succ]
    cases hma : matchAt s with
    | some r =>
      obtain ⟨t, rest⟩ := r
      obtain ⟨hs, hrun⟩ := matchAt_some hma
      have hne : t ≠ [] := hrun.elim (fun h => h.nonempty) (fun h => h.nonempty)
      have hlen : rest.length < n := by
        have h1 : s.length = t.length + rest.length := by rw [hs, List.length_append]
        have : 0 < t.length := List.length_pos.mpr hne
        omega
      simp only
      rw [hs]
      exact Layout.run t rest _ hrun (ih rest hlen)
    | none =>
      cases s with
      | nil => exact Layout.nil
      | cons c cs =>
        simp only [List.length_cons] at hn
        simp only
        exact Layout.space c cs _ (matchAt_none hma c rfl) (ih cs (by omega))

theorem layout_splitPhrase (s : Str) : Layout s (splitPhrase s) :=
  layout_findAll (s.length + 1) s (Nat.lt_succ_self _)

theorem layout_iff (s : Str) (ts : List Str) : Layout s ts ↔ splitPhrase s = ts :=
  ⟨Layout.eq_splitPhrase, fun h => h ▸ layout_splitPhrase s⟩

/-- A run in terms of `classOf`: one class, not whitespace, and the next rune is outside. -/
theorem run_class {t rest : Str} (h : Run isWordChar t rest ∨ Run isPunctChar t rest) :
    t ≠ [] ∧ ∃ k, (k = CharClass.word ∨ k = CharClass.punct) ∧ (∀ d ∈ t, classOf d = k) ∧
      (∀ c, rest.head? = some c → classOf c ≠ k) := by
  rcases h with h | h
  · refine ⟨h.nonempty, CharClass.word, Or.inl rfl, ?_, ?_⟩
    · intro d hd; exact (classOf_word_iff d).mpr (h.all d hd)
    · intro c hc hk
      have := h.stop c hc
      rw [(classOf_word_iff c).mp hk] at this
      exact absurd this (by decide)
  · refine ⟨h.nonempty, CharClass.punct, Or.inr rfl, ?_, ?_⟩
    · intro d hd; exact (classOf_punct_iff d).mpr (h.all d hd)
    · intro c hc hk
      have := h.stop c hc
      rw [(classOf_punct_iff c).mp hk] at this
      exact absurd this (by decide)

theorem run_shorten {t rest pre : Str}
    (h : Run isWordChar t rest ∨ Run isPunctChar t rest)
    (hpre : ∀ c, pre.head? = some c → rest.head? = some c) :
    Run isWordChar t pre ∨ Run isPunctChar t pre := by
  rcases h with h | h
  · exact Or.inl ⟨h.nonempty, h.all, fun c hc => h.stop c (hpre c hc)⟩
  · exact Or.inr ⟨h.nonempty, h.all, fun c hc => h.stop c (hpre c hc)⟩

theorem Layout.flatten_eq {s : Str} {ts : List Str} (h : Layout s ts) :
    ts.flatten = stripSpace s := by
  induction h with
  | nil => rfl
  | space c s ts hc _ ih =>
    rw [ih]
    simp [stripSpace, List.filter_cons, hc]
  | run t rest ts hrun _ ih =>
    obtain ⟨_, k, hk, hall, _⟩ := run_class hrun
    have ht : t.filter (fun c => !isSpaceChar c) = t := by
      rw [List.filter_eq_self]
      intro c hc
      have h1 := hall c hc
      cases hs : isSpaceChar c with
      | false => rfl
      | true =>
        rw [(classOf_space_iff c).mpr hs] at h1
        rcases hk with hk | hk <;> rw [hk] at h1 <;> exact absurd h1 (by decide)
    rw [List.flatten_cons, ih]
    simp only [stripSpace, List.filter_append, ht]

theorem Layout.token_pure {s : Str} {ts : List Str} (h : Layout s ts) :
    ∀ t ∈ ts, t ≠ [] ∧ ∃ k, (k = CharClass.word ∨ k = CharClass.punct) ∧
      ∀ d ∈ t, classOf d = k := by
  induction h with
  | nil => intro t ht; simp at ht
  | space c s ts _ _ ih => exact ih
  | run t rest ts hrun _ ih =>
    intro u hu
    rcases List.mem_cons.mp hu with hu | hu
    · subst hu
      obtain ⟨hne, k, hk, hall, _⟩ := run_class hrun
      exact ⟨hne, k, hk, hall⟩
    · exact ih u hu

theorem Layout.all_space {s : Str} (h : ∀ c ∈ s, isSpaceChar c = true) : Layout s [] := by
  induction s with
  | nil => exact Layout.nil
  | cons c cs ih =>
    exact Layout.space c cs [] (h c (List.mem_cons_self c cs))
      (ih (fun d hd => h d (List.mem_cons_of_mem c hd)))

theorem Layout.occurrence {s : Str} {ts : List Str} (h : Layout s ts) :
    ∀ (p : Str), Boundary p s → ∀ (i : Nat) (t : Str), ts[i]? = some t →
      ∃ pre post, s = pre ++ t ++ post ∧ Layout pre (ts.take i) ∧
        Layout post (ts.drop (i + 1)) ∧
        (∀ c, (p ++ pre).getLast? = some c → ∀ d ∈ t, classOf c ≠ classOf d) ∧
        (∀ c, post.head? = some c → ∀ d ∈ t, classOf c ≠ classOf d) := by
  induction h with
  | nil => intro p _ i t ht; simp at ht
  | space c s ts hc hl ih =>
    intro p _ i t ht
    have hb : Boundary (p ++ [c]) s := by
      intro a b ha _ hbs
      rw [List.getLast?_concat] at ha
      simp only [Option.some.injEq] at ha
      subst ha
      rw [(classOf_space_iff _).mpr hc]
      exact fun h => hbs h.symm
    obtain ⟨pre, post, hs, hpre, hpost, hleft, hright⟩ := ih (p ++ [c]) hb i t ht
    refine ⟨c :: pre, post, ?_, Layout.space c pre _ hc hpre, hpost, ?_, hright⟩
    · rw [hs]; simp
    · intro x hx
      apply hleft x
      simpa using hx
  | run u rest ts hrun hl ih =>
    intro p hp i t ht
    obtain ⟨hne, k, hk, hall, hstop⟩ := run_class hrun
    have hknot : k ≠ CharClass.space := by
      rcases hk with hk | hk <;> rw [hk] <;> decide
    cases i with
    | zero =>
      simp only [List.getElem?_cons_zero, Option.some.injEq] at ht
      subst ht
      refine ⟨[], rest, by simp, Layout.nil, by simpa using hl, ?_, ?_⟩
      · intro c hc d hd
        obtain ⟨b, bs, hbs⟩ := List.exists_cons_of_ne_nil hne
        have hbk : classOf b = k := hall b (by rw [hbs]; exact List.mem_cons_self b bs)
        have h1 := hp c b (by simpa using hc) (by rw [hbs]; rfl) (by rw [hbk]; exact hknot)
        rw [hall d hd, ← hbk]
        exact h1
      · intro c hc d hd
        rw [hall d hd]
        exact hstop c hc
    | succ j =>
      simp only [List.getElem?_cons_succ] at ht
      have hb : Boundary (p ++ u) rest := by
        intro a b ha hb _
        rw [List.getLast?_append_of_ne_nil _ hne] at ha
        have hak : classOf a = k := hall a (List.mem_of_mem_getLast? ha)
        rw [hak]
        exact fun h => hstop b hb h.symm
      obtain ⟨pre, post, hs, hpre, hpost, hleft, hright⟩ := ih (p ++ u) hb j t ht
      refine ⟨u ++ pre, post, ?_, ?_, ?_, ?_, hright⟩
      · rw [hs]; simp
      · rw [List.take_succ_cons]
        refine Layout.run u pre _ (run_shorten hrun ?_) hpre
        intro c hc
        rw [hs]
        cases pre with
        | nil => simp at hc
        | cons x xs => simpa using hc
      · simpa using hpost
      · intro x hx
        apply hleft x
        simpa using hx

/-! ## The dispatcher -/

theorem worker_sent (r : Resolver) (i : Nat) (w : Str) :
    (worker r i w).sent = ⟨i, outcome r w⟩ := by
  unfold outcome worker
  by_cases h : (isPunctuation w || w == apostrophe) = true
  · simp [h]
  · simp only [h]
    cases r w <;> rfl

theorem worker_skip (r : Resolver) (i : Nat) (w : Str)
    (h : (isPunctuation w || w == apostrophe) = true) :
    worker r i w = ⟨⟨i, w⟩, []⟩ := by
  unfold worker
  simp [h]

theorem worker_call (r : Resolver) (i : Nat) (w : Str)
    (h : (isPunctuation w || w == apostrophe) = false) :
    (worker r i w).calls = [w] ∧
      (worker r i w).sent = ⟨i, (r w).getD w⟩ := by
  unfold worker
  simp only [h]
  cases r w <;> simp

theorem index_fanOut (r : Resolver) : ∀ (ws : List Str) (i : Nat),
    ((fanOut r i ws).map (fun run => run.sent)).map (fun m => m.index) =
      List.range' i ws.length := by
  intro ws
  induction ws with
  | nil => intro i; simp [fanOut]
  | cons w ws ih =>
    intro i
    have := ih (i + 1)
    simp only [List.map_map] at this
    simp [fanOut, List.range'_succ, worker_sent, this]

theorem foldl_set_length (arr : List IndexedResult) : ∀ (init : List Str),
    (arr.foldl (fun results result => results.set result.index result.word) init).length =
      init.length := by
  induction arr with
  | nil => intro init; rfl
  | cons m ms ih => intro init; simp [ih]

theorem collect_length (n : Nat) (arr : List IndexedResult) : (collect n arr).length = n := by
  unfold collect
  rw [foldl_set_length]
  simp

theorem foldl_fanOut (r : Resolver) : ∀ (ws : List Str) (pre : List Str),
    ((fanOut r pre.length ws).map (fun run => run.sent)).foldl
        (fun results result => results.set result.index result.word)
        (pre ++ List.replicate ws.length []) =
      pre ++ ws.map (outcome r) := by
  intro ws
  induction ws with
  | nil => intro pre; simp [fanOut]
  | cons w ws ih =>
    intro pre
    have h := ih (pre ++ [outcome r w])
    simp only [List.length_append, List.length_singleton, List.append_assoc,
      List.singleton_append] at h
    simp only [fanOut, List.map_cons, List.foldl_cons, worker_sent, List.length_cons,
      List.replicate_succ]
    rw [List.set_append_right _ _ (Nat.le_refl _)]
    simp only [Nat.sub_self, List.set_cons_zero]
    exact h

theorem collect_inOrder (r : Resolver) (ws : List Str) :
    collect ws.length (sentResults r ws) = ws.map (outcome r) := by
  have := foldl_fanOut r ws []
  simpa [collect, sentResults] using this

theorem sent_index_inj (r : Resolver) (ws : List Str) :
    ∀ x ∈ sentResults r ws, ∀ y ∈ sentResults r ws, x.index = y.index → x = y := by
  have hnodup : ((sentResults r ws).map (fun m => m.index)).Nodup := by
    unfold sentResults
    rw [index_fanOut]
    exact List.nodup_range' _ _
  intro x hx y hy hxy
  exact List.inj_on_of_nodup_map hnodup hx hy hxy

theorem collect_perm (r : Resolver) (ws : List Str) (arr : List IndexedResult)
    (h : arr.Perm (sentResults r ws)) (n : Nat) :
    collect n arr = collect n (sentResults r ws) := by
  unfold collect
  apply List.Perm.foldl_eq' h
  intro x hx y hy z
  by_cases hxy : x.index = y.index
  · have := sent_index_inj r ws x (h.subset hx) y (h.subset hy) hxy
    rw [this]
  · exact List.set_comm _ _ z hxy

theorem indexedResults_eq (r : Resolver) (sched : Schedule) (phrase : Str) :
    indexedResults r sched phrase = (splitPhrase phrase).map (outcome r) := by
  unfold indexedResults
  simp only
  rw [collect_perm r _ _ (sched.perm _), collect_inOrder]

/-! ## The reassembler -/

theorem apostrophe_isPunctuation : isPunctuation apostrophe = true := by decide

theorem skip_iff (w : Str) :
    (isPunctuation w || w == apostrophe) = isPunctuation w := by
  cases h : isPunctuation w with
  | true => rfl
  | false =>
    simp only [Bool.false_or, beq_eq_false_iff_ne, ne_eq]
    intro hw
    rw [hw, apostrophe_isPunctuation] at h
    exact absurd h (by decide)

theorem outcome_punct (r : Resolver) (w : Str) (h : isPunctuation w = true) :
    outcome r w = w := by
  unfold outcome
  rw [worker_skip r 0 w (by rw [skip_iff]; exact h)]

theorem outcome_word (r : Resolver) (w : Str) (h : isPunctuation w = false) :
    outcome r w = (r w).getD w := by
  unfold outcome
  rw [(worker_call r 0 w (by rw [skip_iff]; exact h)).2]

theorem punctuations_not_letterOrDigit :
    ∀ c ∈ punctuations, isLetterOrDigit c = false := by decide

theorem punctuations_word_underscore :
    ∀ c ∈ punctuations, isWordChar c = true → c = '_' := by decide

theorem isWordChar_iff (c : Char) :
    isWordChar c = true ↔ (isLetterOrDigit c = true ∨ c = '_') := by
  unfold isWordChar isLetterOrDigit
  simp only [Bool.or_eq_true, Bool.and_eq_true, decide_eq_true_eq, beq_iff_eq]
  tauto

theorem isPunctuation_false_iff (w : Str) :
    isPunctuation w = false ↔ ∀ c ∈ w, c ∉ punctuations := by
  unfold isPunctuation
  rw [Bool.eq_false_iff]
  simp [List.any_eq_true]

theorem isPunctuation_false_of_letters (w : Str)
    (h : ∀ c ∈ w, isLetterOrDigit c = true) : isPunctuation w = false := by
  rw [isPunctuation_false_iff]
  intro c hc hp
  have := punctuations_not_letterOrDigit c hp
  rw [h c hc] at this
  exact absurd this (by decide)

theorem isPunctuation_false_of_word (w : Str)
    (h : ∀ c ∈ w, isWordChar c = true) (hu : '_' ∉ w) : isPunctuation w = false := by
  rw [isPunctuation_false_iff]
  intro c hc hp
  have := punctuations_word_underscore c hp (h c hc)
  rw [this] at hc
  exact hu hc

theorem appendResult_apostrophe (st : Str × Bool) :
    appendResult st apostrophe = (st.1 ++ apostrophe, true) := by
  simp [appendResult]

theorem appendResult_punct (st : Str × Bool) (w : Str) (h : isPunctuation w = true) :
    appendResult st w = (st.1 ++ w, if w = apostrophe then true else st.2) := by
  unfold appendResult
  by_cases hap : w = apostrophe
  · simp [hap]
  · have hne : (w == apostrophe) = false := by simpa using hap
    simp [hne, h, hap]

theorem appendResult_word (st : Str × Bool) (w : Str) (h : isPunctuation w = false) :
    appendResult st w = ((if st.2 = true then st.1 else st.1 ++ [' ']) ++ w, false) := by
  have hap : (w == apostrophe) = false := by
    have := skip_iff w
    rw [h] at this
    simpa using this
  unfold appendResult
  cases hf : st.2 <;> simp [hap, h]

theorem foldl_appendResult_punct : ∀ (ws : List Str) (out : Str) (flag : Bool),
    (∀ w ∈ ws, isPunctuation w = true) →
    (ws.foldl appendResult (out, flag)).1 = out ++ ws.flatten := by
  intro ws
  induction ws with
  | nil => intro out flag _; simp
  | cons w ws ih =>
    intro out flag h
    have hw : isPunctuation w = true := h w (List.mem_cons_self w ws)
    have hws : ∀ v ∈ ws, isPunctuation v = true := fun v hv => h v (List.mem_cons_of_mem w hv)
    rw [List.foldl_cons, appendResult_punct _ w hw, ih _ _ hws]
    simp

theorem reassemble_punct (ws : List Str) (h : ∀ w ∈ ws, isPunctuation w = true) :
    reassemble ws = ws.flatten := by
  unfold reassemble
  rw [foldl_appendResult_punct ws [] true h]
  simp

theorem stripSpace_append (a b : Str) : stripSpace (a ++ b) = stripSpace a ++ stripSpace b := by
  simp [stripSpace]

theorem stripSpace_idem (a : Str) : stripSpace (stripSpace a) = stripSpace a := by
  simp [stripSpace, List.filter_filter]

theorem stripSpace_foldl_appendResult : ∀ (ws : List Str) (st : Str × Bool),
    stripSpace (ws.foldl appendResult st).1 = stripSpace st.1 ++ stripSpace ws.flatten := by
  intro ws
  induction ws with
  | nil => intro st; simp [stripSpace]
  | cons w ws ih =>
    intro st
    rw [List.foldl_cons, ih, List.flatten_cons, stripSpace_append, ← List.append_assoc]
    congr 1
    cases hp : isPunctuation w with
    | true => rw [appendResult_punct st w hp, stripSpace_append]
    | false =>
      rw [appendResult_word st w hp]
      cases st.2 <;> simp [stripSpace_append, stripSpace, isSpaceChar]

theorem stripSpace_reassemble (ws : List Str) :
    stripSpace (reassemble ws) = stripSpace ws.flatten := by
  unfold reassemble
  rw [stripSpace_foldl_appendResult]
  simp [stripSpace]

theorem GetSynonyms_eq (r : Resolver) (sched : Schedule) (phrase : Str) :
    GetSynonyms r sched phrase = reassemble ((splitPhrase phrase).map (outcome r)) := by
  unfold GetSynonyms
  rw [indexedResults_eq]

theorem indexedResults_getElem? (r : Resolver) (sched : Schedule) (phrase : Str) (i : Nat)
    (w : Str) (h : (splitPhrase phrase)[i]? = some w) :
    (indexedResults r sched phrase)[i]? = some (outcome r w) := by
  rw [indexedResults_eq, List.getElem?_map, h]
  rfl

/-! ## Claims about the tokenizer -/

/-- Claim C1: concatenating the tokens of `splitPhrase` in order gives the phrase with its
whitespace removed, no token contains whitespace, and the empty phrase and every
whitespace-only phrase have no tokens. -/
theorem splitPhrase_concat (phrase : Str) :
    (splitPhrase phrase).flatten = stripSpace phrase ∧
    (∀ t ∈ splitPhrase phrase, ∀ c ∈ t, isSpaceChar c = false) ∧
    splitPhrase [] = [] ∧
    ((∀ c ∈ phrase, isSpaceChar c = true) → splitPhrase phrase = []) := by
  refine ⟨(layout_splitPhrase phrase).flatten_eq, ?_, rfl,
    fun h => (Layout.all_space h).eq_splitPhrase⟩
  intro t ht c hc
  obtain ⟨_, k, hk, hall⟩ := (layout_splitPhrase phrase).token_pure t ht
  cases hs : isSpaceChar c with
  | false => rfl
  | true =>
    have h1 := hall c hc
    rw [(classOf_space_iff c).mpr hs] at h1
    rcases hk with hk | hk <;> rw [hk] at h1 <;> exact absurd h1 (by decide)

theorem splitPhrase_concat_witness :
    (∀ c ∈ " \t\n ".toList, isSpaceChar c = true) ∧ splitPhrase " \t\n ".toList = [] :=
  ⟨by decide, (splitPhrase_concat " \t\n ".toList).2.2.2 (by decide)⟩

/-- Claim C2: every token of `splitPhrase` is non-empty and is a maximal run of one class, word
characters or characters that are neither whitespace nor word characters: it occurs in the
phrase between the tokens before it and the tokens after it, the runes on either side of
the occurrence are of another class, and a token that follows it with no whitespace in
between is of the other class. -/
theorem splitPhrase_maximal_runs (phrase : Str) (i : Nat) (t : Str)
    (h : (splitPhrase phrase)[i]? = some t) :
    t ≠ [] ∧ (isWordToken t ∨ isPunctToken t) ∧ ¬ (isWordToken t ∧ isPunctToken t) ∧
    ∃ pre post, phrase = pre ++ t ++ post ∧
      splitPhrase pre = (splitPhrase phrase).take i ∧
      splitPhrase post = (splitPhrase phrase).drop (i + 1) ∧
      (∀ c, pre.getLast? = some c → ∀ d ∈ t, classOf c ≠ classOf d) ∧
      (∀ c, post.head? = some c → ∀ d ∈ t, classOf c ≠ classOf d) ∧
      (∀ u, (splitPhrase phrase)[i + 1]? = some u → u <+: post →
        (isWordToken t ↔ isPunctToken u) ∧ (isPunctToken t ↔ isWordToken u)) := by
  have hl := layout_splitPhrase phrase
  have hpure : ∀ v ∈ splitPhrase phrase, v ≠ [] ∧ ∃ k,
      (k = CharClass.word ∨ k = CharClass.punct) ∧ ∀ d ∈ v, classOf d = k := hl.token_pure
  -- a token of one class is a word token or a punctuation token, not both
  have hkind : ∀ v : Str, v ≠ [] → ∀ k, (k = CharClass.word ∨ k = CharClass.punct) →
      (∀ d ∈ v, classOf d = k) →
      (isWordToken v ↔ k = CharClass.word) ∧ (isPunctToken v ↔ k = CharClass.punct) := by
    intro v hv k _ hall
    obtain ⟨b, bs, hbs⟩ := List.exists_cons_of_ne_nil hv
    have hb : classOf b = k := hall b (by rw [hbs]; exact List.mem_cons_self b bs)
    constructor
    · constructor
      · intro hw
        rw [← hb]; exact hw b (by rw [hbs]; exact List.mem_cons_self b bs)
      · intro hk d hd
        rw [hall d hd, hk]
    · constructor
      · intro hw
        rw [← hb]; exact hw b (by rw [hbs]; exact List.mem_cons_self b bs)
      · intro hk d hd
        rw [hall d hd, hk]
  obtain ⟨hne, k, hk, hall⟩ := hpure t (List.getElem?_mem h)
  obtain ⟨hwt, hpt⟩ := hkind t hne k hk hall
  refine ⟨hne, ?_, ?_, ?_⟩
  · rcases hk with hk | hk
    · exact Or.inl (hwt.mpr hk)
    · exact Or.inr (hpt.mpr hk)
  · rintro ⟨h1, h2⟩
    have := hwt.mp h1
    rw [hpt.mp h2] at this
    exact absurd this (by decide)
  · have hb : Boundary [] phrase := by
      intro a b ha
      simp at ha
    obtain ⟨pre, post, hs, hpre, hpost, hleft, hright⟩ := hl.occurrence [] hb i t h
    refine ⟨pre, post, hs, hpre.eq_splitPhrase, hpost.eq_splitPhrase, ?_, hright, ?_⟩
    · intro c hc
      exact hleft c (by simpa using hc)
    · intro u hu hpref
      obtain ⟨hune, k', hk', hall'⟩ := hpure u (List.getElem?_mem hu)
      obtain ⟨hwu, hpu⟩ := hkind u hune k' hk' hall'
      obtain ⟨b, bs, hbs⟩ := List.exists_cons_of_ne_nil hune
      obtain ⟨tl, htl⟩ := hpref
      have hhead : post.head? = some b := by rw [← htl, hbs]; rfl
      obtain ⟨d, ds, hds⟩ := List.exists_cons_of_ne_nil hne
      have hd : d ∈ t := by rw [hds]; exact List.mem_cons_self d ds
      have hdiff := hright b hhead d hd
      rw [hall d hd, hall' b (by rw [hbs]; exact List.mem_cons_self b bs)] at hdiff
      rw [hwt, hpt, hwu, hpu]
      rcases hk with hk | hk <;> rcases hk' with hk' | hk' <;> subst hk <;> subst hk' <;>
        simp at hdiff ⊢

theorem splitPhrase_maximal_runs_witness :
    (splitPhrase "ab,c d".toList)[1]? = some ",".toList ∧
      ",".toList ≠ [] ∧ (isWordToken ",".toList ∨ isPunctToken ",".toList) :=
  ⟨by decide,
    (splitPhrase_maximal_runs "ab,c d".toList 1 ",".toList (by decide)).1,
    (splitPhrase_maximal_runs "ab,c d".toList 1 ",".toList (by decide)).2.1⟩

/-! ## Claims about the dispatcher -/

/-- Claim C3, as stated, fails: the one-rune phrase `—` (an em dash) is a punctuation token of the
tokenizer, yet it contains no character of `punctuations`, so its goroutine calls the
resolver and reports the resolver's answer. -/
theorem punct_token_reaches_resolver :
    ¬ ∀ (r : Resolver) (sched : Schedule) (phrase : Str) (i : Nat) (w : Str),
        (splitPhrase phrase)[i]? = some w → (isPunctToken w ∨ w = apostrophe) →
        (worker r i w).calls = [] ∧ (indexedResults r sched phrase)[i]? = some w := by
  intro h
  have h1 := h (fun _ => some "x".toList) Schedule.inOrder "—".toList 0 "—".toList
    (by decide) (Or.inl (by decide))
  exact absurd h1.1 (by decide)

/-- Claim C3 (amended): a token that contains at least one character of `punctuations`, or that is
exactly a single apostrophe, is never passed to the resolver: its goroutine makes no call
and sends the token itself, and the result at its position is the token unchanged. -/
theorem punctuation_never_dispatched (r : Resolver) (sched : Schedule) (phrase : Str)
    (i : Nat) (w : Str) (hw : (splitPhrase phrase)[i]? = some w)
    (hp : isPunctuation w = true ∨ w = apostrophe) :
    (worker r i w).calls = [] ∧ (worker r i w).sent = ⟨i, w⟩ ∧
      (indexedResults r sched phrase)[i]? = some w := by
  have hp2 : isPunctuation w = true := by
    rcases hp with hp | hp
    · exact hp
    · rw [hp]; exact apostrophe_isPunctuation
  have hskip : (isPunctuation w || w == apostrophe) = true := by rw [skip_iff]; exact hp2
  refine ⟨?_, ?_, ?_⟩
  · rw [worker_skip r i w hskip]
  · rw [worker_skip r i w hskip]
  · rw [indexedResults_getElem? r sched phrase i w hw, outcome_punct r w hp2]

theorem punctuation_never_dispatched_witness :
    (splitPhrase "Hi!?".toList)[1]? = some "!?".toList ∧
      (isPunctuation "!?".toList = true ∨ "!?".toList = apostrophe) ∧
      (worker (fun _ => some "x".toList) 1 "!?".toList).calls = [] ∧
      (indexedResults (fun _ => some "x".toList) Schedule.reversed "Hi!?".toList)[1]? =
        some "!?".toList :=
  ⟨by decide, Or.inl (by decide),
    (punctuation_never_dispatched (fun _ => some "x".toList) Schedule.reversed "Hi!?".toList 1
      "!?".toList (by decide) (Or.inl (by decide))).1,
    (punctuation_never_dispatched (fun _ => some "x".toList) Schedule.reversed "Hi!?".toList 1
      "!?".toList (by decide) (Or.inl (by decide))).2.2⟩

/-- Claim C4, as stated, fails: `a_b` is a word token, but the underscore is one of `punctuations`,
so its goroutine does not call the resolver and reports `a_b` although the resolver would
answer `x`. -/
theorem underscore_word_not_looked_up :
    ¬ ∀ (r : Resolver) (sched : Schedule) (phrase : Str) (i : Nat) (w : Str),
        (splitPhrase phrase)[i]? = some w → isWordToken w →
        (worker r i w).calls = [w] ∧
          ∀ s, r w = some s → (indexedResults r sched phrase)[i]? = some s := by
  intro h
  have h1 := h (fun _ => some "x".toList) Schedule.inOrder "a_b".toList 0 "a_b".toList
    (by decide) (by decide)
  exact absurd h1.1 (by decide)

/-- Claim C4 (amended): a word token that contains no underscore is passed to the resolver exactly
once, with its own text, and when the resolver succeeds with `s` the result at the token's
position is `s`. -/
theorem word_token_looked_up (r : Resolver) (sched : Schedule) (phrase : Str)
    (i : Nat) (w : Str) (hw : (splitPhrase phrase)[i]? = some w)
    (hword : isWordToken w) (hu : '_' ∉ w) :
    (worker r i w).calls = [w] ∧
      ∀ s, r w = some s → (indexedResults r sched phrase)[i]? = some s := by
  have hp : isPunctuation w = false :=
    isPunctuation_false_of_word w (fun c hc => (classOf_word_iff c).mp (hword c hc)) hu
  have hskip : (isPunctuation w || w == apostrophe) = false := by rw [skip_iff]; exact hp
  refine ⟨(worker_call r i w hskip).1, ?_⟩
  intro s hs
  rw [indexedResults_getElem? r sched phrase i w hw, outcome_word r w hp, hs]
  rfl

theorem word_token_looked_up_witness :
    (splitPhrase "Hi you".toList)[1]? = some "you".toList ∧ isWordToken "you".toList ∧
      '_' ∉ "you".toList ∧
      (worker (fun _ => some "thou".toList) 1 "you".toList).calls = ["you".toList] ∧
      (indexedResults (fun _ => some "thou".toList) Schedule.reversed "Hi you".toList)[1]? =
        some "thou".toList :=
  ⟨by decide, by decide, by decide,
    (word_token_looked_up (fun _ => some "thou".toList) Schedule.reversed "Hi you".toList 1
      "you".toList (by decide) (by decide) (by decide)).1,
    (word_token_looked_up (fun _ => some "thou".toList) Schedule.reversed "Hi you".toList 1
      "you".toList (by decide) (by decide) (by decide)).2 "thou".toList rfl⟩

theorem outcome_answerSelf (r : Resolver) (W : Str) (h : r W = none) (w : Str) :
    outcome (answerSelf r W) w = outcome r w := by
  cases hp : isPunctuation w with
  | true => rw [outcome_punct _ w hp, outcome_punct _ w hp]
  | false =>
    rw [outcome_word _ w hp, outcome_word _ w hp]
    unfold answerSelf
    by_cases hw : w = W
    · simp [hw, h]
    · simp [hw]

/-- Claim C5: when the resolver `r` fails on `W`, `GetSynonyms` still returns a string, the same
one as with the resolver that answers `W` for `W` and agrees with `r` elsewhere: every
position holding `W` carries `W`, and every other looked-up position carries the answer of
`r`. -/
theorem lookup_failure_tolerance (r : Resolver) (sched : Schedule) (phrase : Str) (W : Str)
    (hfail : r W = none) :
    GetSynonyms r sched phrase = GetSynonyms (answerSelf r W) sched phrase ∧
    indexedResults r sched phrase = indexedResults (answerSelf r W) sched phrase ∧
    (∀ i : Nat, (splitPhrase phrase)[i]? = some W → (indexedResults r sched phrase)[i]? = some W) ∧
    (∀ (i : Nat) (w s : Str), (splitPhrase phrase)[i]? = some w → isPunctuation w = false → r w = some s →
      (indexedResults r sched phrase)[i]? = some s) := by
  have hres : indexedResults r sched phrase = indexedResults (answerSelf r W) sched phrase := by
    rw [indexedResults_eq, indexedResults_eq]
    apply List.map_congr_left
    intro w _
    exact (outcome_answerSelf r W hfail w).symm
  refine ⟨?_, hres, ?_, ?_⟩
  · unfold GetSynonyms
    rw [hres]
  · intro i hi
    rw [indexedResults_getElem? r sched phrase i W hi]
    cases hp : isPunctuation W with
    | true => rw [outcome_punct r W hp]
    | false => rw [outcome_word r W hp, hfail]; rfl
  · intro i w s hi hp hs
    rw [indexedResults_getElem? r sched phrase i w hi, outcome_word r w hp, hs]
    rfl

theorem lookup_failure_tolerance_witness :
    goodOnly "day".toList = none ∧
      (splitPhrase "good day".toList)[1]? = some "day".toList ∧
      GetSynonyms goodOnly Schedule.reversed "good day".toList = "fine day".toList ∧
      GetSynonyms goodOnly Schedule.reversed "good day".toList =
        GetSynonyms (answerSelf goodOnly "day".toList) Schedule.reversed "good day".toList :=
  ⟨by decide, by decide, by decide,
    (lookup_failure_tolerance goodOnly Schedule.reversed "good day".toList "day".toList
      (by decide)).1⟩

/-- Claim C6: whatever the order in which the sent values arrive, the collected slice has one entry
per token, every position of `[0, N)` is written exactly once, the entry at position `i` is
the outcome of token `i`, and the final string is the same for every arrival order. -/
theorem fan_in_order_determinism (r : Resolver) (words : List Str)
    (arrivals : List IndexedResult) (h : arrivals.Perm (sentResults r words)) :
    (collect words.length arrivals).length = words.length ∧
    (arrivals.map (fun m => m.index)).Perm (List.range words.length) ∧
    (∀ (i : Nat) (w : Str), words[i]? = some w →
      (collect words.length arrivals)[i]? = some (worker r i w).sent.word) ∧
    (∀ arrivals' : List IndexedResult, arrivals'.Perm (sentResults r words) →
      reassemble (collect words.length arrivals') =
        reassemble (collect words.length arrivals)) ∧
    (∀ (sched : Schedule) (phrase : Str), splitPhrase phrase = words →
      GetSynonyms r sched phrase = reassemble (collect words.length arrivals)) := by
  have hcol : collect words.length arrivals = words.map (outcome r) := by
    rw [collect_perm r words arrivals h, collect_inOrder]
  refine ⟨collect_length _ _, ?_, ?_, ?_, ?_⟩
  · have h1 := h.map (fun m => m.index)
    have h2 : (sentResults r words).map (fun m => m.index) = List.range words.length := by
      unfold sentResults
      rw [index_fanOut, List.range_eq_range']
    rw [h2] at h1
    exact h1
  · intro i w hi
    rw [hcol, List.getElem?_map, hi, worker_sent]
    rfl
  · intro arrivals' h'
    rw [hcol, collect_perm r words arrivals' h', collect_inOrder]
  · intro sched phrase hp
    rw [GetSynonyms_eq, hp, hcol]

theorem fan_in_order_determinism_witness :
    [⟨1, "day".toList⟩, ⟨0, "fine".toList⟩].Perm
        (sentResults goodOnly ["good".toList, "day".toList]) ∧
      collect 2 [⟨1, "day".toList⟩, ⟨0, "fine".toList⟩] = ["fine".toList, "day".toList] ∧
      (collect 2 [⟨1, "day".toList⟩, ⟨0, "fine".toList⟩]).length = 2 :=
  ⟨by decide, by decide,
    (fan_in_order_determinism goodOnly ["good".toList, "day".toList]
      [⟨1, "day".toList⟩, ⟨0, "fine".toList⟩] (by decide)).1⟩

/-! ## Claims about the reassembled phrase -/

theorem splitPhrase_letters {a rest : Str} (ha : a ≠ [])
    (hal : ∀ c ∈ a, isLetterOrDigit c = true)
    (hstop : ∀ c, rest.head? = some c → isWordChar c = false) :
    splitPhrase (a ++ rest) = a :: splitPhrase rest :=
  splitPhrase_run
    (Or.inl ⟨ha, fun c hc => (isWordChar_iff c).mpr (Or.inl (hal c hc)), hstop⟩)

theorem splitPhrase_punct_char {p : Char} {rest : Str} (hp : isPunctChar p = true)
    (hstop : ∀ c, rest.head? = some c → isPunctChar c = false) :
    splitPhrase (p :: rest) = [p] :: splitPhrase rest := by
  have h : Run isPunctChar [p] rest :=
    ⟨by simp, fun c hc => by rw [List.mem_singleton.mp hc]; exact hp, hstop⟩
  exact splitPhrase_run (t := [p]) (Or.inr h)

theorem head_letters_not_punct {b rest : Str} (hb : b ≠ [])
    (hbl : ∀ c ∈ b, isLetterOrDigit c = true) :
    ∀ c, (b ++ rest).head? = some c → isPunctChar c = false := by
  intro c hc
  obtain ⟨x, xs, hx⟩ := List.exists_cons_of_ne_nil hb
  rw [hx] at hc
  simp only [List.cons_append, List.head?_cons, Option.some.injEq] at hc
  subst hc
  have hw : isWordChar x = true :=
    (isWordChar_iff x).mpr (Or.inl (hbl x (by rw [hx]; exact List.mem_cons_self x xs)))
  simp [isPunctChar, hw]

/-- Claim C7, as stated, fails: `! !` has only punctuation tokens, and the reassembler puts no
space between them, so the phrase comes back as `!!`. -/
theorem punctuation_only_not_unchanged :
    ¬ ∀ (r : Resolver) (sched : Schedule) (phrase : Str),
        (∀ t ∈ splitPhrase phrase, isPunctToken t) → GetSynonyms r sched phrase = phrase := by
  intro h
  have h1 := h (fun _ => none) Schedule.inOrder "! !".toList (by decide)
  exact absurd h1 (by decide)

/-- Claim C7 (amended): when every token of the phrase contains a character of `punctuations`,
`GetSynonyms` returns, for every resolver, the phrase with its whitespace removed; such a
phrase without whitespace is returned unchanged. -/
theorem punctuation_only_phrase (r : Resolver) (sched : Schedule) (phrase : Str)
    (h : ∀ t ∈ splitPhrase phrase, isPunctuation t = true) :
    GetSynonyms r sched phrase = stripSpace phrase ∧
    ((∀ c ∈ phrase, isSpaceChar c = false) → GetSynonyms r sched phrase = phrase) := by
  have hmap : (splitPhrase phrase).map (outcome r) = splitPhrase phrase := by
    conv_rhs => rw [← List.map_id (splitPhrase phrase)]
    apply List.map_congr_left
    intro w hw
    exact outcome_punct r w (h w hw)
  have hout : GetSynonyms r sched phrase = stripSpace phrase := by
    rw [GetSynonyms_eq, hmap, reassemble_punct _ h, (layout_splitPhrase phrase).flatten_eq]
  refine ⟨hout, ?_⟩
  intro hns
  rw [hout]
  unfold stripSpace
  rw [List.filter_eq_self]
  intro c hc
  simp [hns c hc]

theorem punctuation_only_phrase_witness :
    (∀ t ∈ splitPhrase "?! ...".toList, isPunctuation t = true) ∧
      GetSynonyms (fun _ => some "x".toList) Schedule.reversed "?! ...".toList =
        stripSpace "?! ...".toList ∧
      stripSpace "?! ...".toList = "?!...".toList :=
  ⟨by decide,
    (punctuation_only_phrase (fun _ => some "x".toList) Schedule.reversed "?! ...".toList
      (by decide)).1,
    by decide⟩

/-- Claim C8, as stated, fails: with a resolver that always fails, `a,b` comes back as `a, b`,
because the reassembler puts a space before a word that follows a word or punctuation. -/
theorem unresolved_phrase_not_identical :
    ¬ ∀ (r : Resolver) (sched : Schedule) (phrase : Str),
        (∀ w, r w = none ∨ r w = some w) → GetSynonyms r sched phrase = phrase := by
  intro h
  have h1 := h (fun _ => none) Schedule.inOrder "a,b".toList (fun _ => Or.inl rfl)
  exact absurd h1 (by decide)

/-- Claim C8 (amended): the result at a position differs from the token there only when the
resolver was called on that token and succeeded with that result; and when no lookup
resolves (each fails or returns the word itself) the results are exactly the tokens, the
output is the reassembly of the unchanged tokens, and it equals the input up to
whitespace. -/
theorem unresolved_phrase_keeps_tokens (r : Resolver) (sched : Schedule) (phrase : Str) :
    (∀ (i : Nat) (w x : Str), (splitPhrase phrase)[i]? = some w →
      (indexedResults r sched phrase)[i]? = some x → x ≠ w →
      isPunctuation w = false ∧ r w = some x) ∧
    ((∀ w ∈ splitPhrase phrase, isPunctuation w = false → (r w = none ∨ r w = some w)) →
      indexedResults r sched phrase = splitPhrase phrase ∧
      GetSynonyms r sched phrase = reassemble (splitPhrase phrase) ∧
      stripSpace (GetSynonyms r sched phrase) = stripSpace phrase) := by
  constructor
  · intro i w x hi hx hne
    rw [indexedResults_getElem? r sched phrase i w hi] at hx
    simp only [Option.some.injEq] at hx
    cases hp : isPunctuation w with
    | true =>
      rw [outcome_punct r w hp] at hx
      exact absurd hx.symm hne
    | false =>
      rw [outcome_word r w hp] at hx
      refine ⟨rfl, ?_⟩
      cases hr : r w with
      | none => rw [hr] at hx; exact absurd hx.symm hne
      | some s => rw [hr] at hx; simp only [Option.getD_some] at hx; rw [hx]
  · intro h
    have hmap : (splitPhrase phrase).map (outcome r) = splitPhrase phrase := by
      conv_rhs => rw [← List.map_id (splitPhrase phrase)]
      apply List.map_congr_left
      intro w hw
      cases hp : isPunctuation w with
      | true => exact outcome_punct r w hp
      | false =>
        rw [outcome_word r w hp]
        rcases h w hw hp with hr | hr <;> rw [hr] <;> rfl
    have hres : indexedResults r sched phrase = splitPhrase phrase := by
      rw [indexedResults_eq, hmap]
    refine ⟨hres, ?_, ?_⟩
    · unfold GetSynonyms; rw [hres]
    · unfold GetSynonyms
      rw [hres, stripSpace_reassemble, (layout_splitPhrase phrase).flatten_eq, stripSpace_idem]

theorem unresolved_phrase_keeps_tokens_witness :
    (∀ w ∈ splitPhrase "a,b  c".toList, isPunctuation w = false →
        ((fun _ => none : Resolver) w = none ∨ (fun _ => none : Resolver) w = some w)) ∧
      GetSynonyms (fun _ => none) Schedule.reversed "a,b  c".toList = "a, b c".toList ∧
      stripSpace (GetSynonyms (fun _ => none) Schedule.reversed "a,b  c".toList) =
        stripSpace "a,b  c".toList :=
  ⟨fun _ _ _ => Or.inl rfl, by decide,
    ((unresolved_phrase_keeps_tokens (fun _ => none) Schedule.reversed "a,b  c".toList).2
      (fun _ _ _ => Or.inl rfl)).2.2⟩

theorem splitPhrase_comma_bang (a b : Str) (ha : a ≠ []) (hb : b ≠ [])
    (hal : ∀ c ∈ a, isLetterOrDigit c = true) (hbl : ∀ c ∈ b, isLetterOrDigit c = true) :
    splitPhrase (a ++ ", ".toList ++ b ++ "!".toList) = [a, ",".toList, b, "!".toList] := by
  have hshape : a ++ ", ".toList ++ b ++ "!".toList = a ++ (',' :: ' ' :: (b ++ ['!'])) := by
    show a ++ [',', ' '] ++ b ++ ['!'] = _
    simp
  rw [hshape, splitPhrase_letters ha hal (by intro c hc; simp at hc; subst hc; decide),
    splitPhrase_punct_char (by decide) (by intro c hc; simp at hc; subst hc; decide),
    splitPhrase_space _ (by decide),
    splitPhrase_letters hb hbl (by intro c hc; simp at hc; subst hc; decide)]
  rfl

theorem splitPhrase_apostrophe (a b : Str) (ha : a ≠ []) (hb : b ≠ [])
    (hal : ∀ c ∈ a, isLetterOrDigit c = true) (hbl : ∀ c ∈ b, isLetterOrDigit c = true) :
    splitPhrase (a ++ apostrophe ++ b) = [a, apostrophe, b] := by
  have hshape : a ++ apostrophe ++ b = a ++ (Char.ofNat 39 :: (b ++ [])) := by
    show a ++ [Char.ofNat 39] ++ b = _
    simp
  rw [hshape, splitPhrase_letters ha hal (by intro c hc; simp at hc; subst hc; decide),
    splitPhrase_punct_char (by decide) (head_letters_not_punct hb hbl),
    splitPhrase_letters hb hbl (by intro c hc; simp at hc)]
  rfl

/-- Claim C9: for non-empty words `a` and `b` of letters and digits that the resolver maps to the
punctuation-free `a'` and `b'`, the phrase `a, b!` is rewritten to `a', b'!`: no space before
punctuation, none before the first word, one before the later word. -/
theorem word_comma_word_bang (r : Resolver) (sched : Schedule) (a b a' b' : Str)
    (ha : a ≠ []) (hb : b ≠ [])
    (hal : ∀ c ∈ a, isLetterOrDigit c = true) (hbl : ∀ c ∈ b, isLetterOrDigit c = true)
    (hra : r a = some a') (hrb : r b = some b')
    (hpa : isPunctuation a' = false) (hpb : isPunctuation b' = false) :
    GetSynonyms r sched (a ++ ", ".toList ++ b ++ "!".toList) =
      a' ++ ", ".toList ++ b' ++ "!".toList := by
  have hoa : outcome r a = a' := by
    rw [outcome_word r a (isPunctuation_false_of_letters a hal), hra]; rfl
  have hob : outcome r b = b' := by
    rw [outcome_word r b (isPunctuation_false_of_letters b hbl), hrb]; rfl
  have hoc : outcome r ",".toList = ",".toList := outcome_punct r _ (by decide)
  have hoe : outcome r "!".toList = "!".toList := outcome_punct r _ (by decide)
  rw [GetSynonyms_eq, splitPhrase_comma_bang a b ha hb hal hbl]
  simp only [List.map_cons, List.map_nil, hoa, hob, hoc, hoe]
  unfold reassemble
  simp only [List.foldl_cons, List.foldl_nil]
  rw [appendResult_word _ a' hpa, appendResult_punct _ ",".toList (by decide),
    appendResult_word _ b' hpb, appendResult_punct _ "!".toList (by decide)]
  show (([] ++ a') ++ [','] ++ [' '] ++ b') ++ ['!'] = a' ++ [',', ' '] ++ b' ++ ['!']
  simp

theorem word_comma_word_bang_witness :
    "Hello".toList ≠ [] ∧ helloWorld "Hello".toList = some "Greetings".toList ∧
      helloWorld "world".toList = some "earth".toList ∧
      GetSynonyms helloWorld Schedule.reversed "Hello, world!".toList =
        "Greetings, earth!".toList :=
  ⟨by decide, by decide, by decide,
    word_comma_word_bang helloWorld Schedule.reversed "Hello".toList "world".toList
      "Greetings".toList "earth".toList (by decide) (by decide) (by decide) (by decide)
      (by decide) (by decide) (by decide) (by decide)⟩

/-- Claim C10: the standalone apostrophe token is never sent to the resolver, is appended with no
space before it, and the word after it is appended with no space; so for non-empty words
`a` and `b` of letters and digits that the resolver maps to the punctuation-free `a'` and
`b'`, the phrase made of `a`, an apostrophe and `b` is rewritten to `a'`, an apostrophe and
`b'`.  The phrase "I can't stop." comes back unchanged when every word resolves to itself,
and as "I may't stop." when only `can` resolves, to `may`. -/
theorem apostrophe_preserved (r : Resolver) (sched : Schedule) (a b a' b' : Str)
    (ha : a ≠ []) (hb : b ≠ [])
    (hal : ∀ c ∈ a, isLetterOrDigit c = true) (hbl : ∀ c ∈ b, isLetterOrDigit c = true)
    (hra : r a = some a') (hrb : r b = some b')
    (hpa : isPunctuation a' = false) (hpb : isPunctuation b' = false) :
    (∀ i, (worker r i apostrophe).calls = [] ∧ (worker r i apostrophe).sent = ⟨i, apostrophe⟩) ∧
    (∀ st : Str × Bool, appendResult st apostrophe = (st.1 ++ apostrophe, true)) ∧
    (∀ (st : Str × Bool) (w : Str), isPunctuation w = false →
      appendResult (appendResult st apostrophe) w = (st.1 ++ apostrophe ++ w, false)) ∧
    GetSynonyms r sched (a ++ apostrophe ++ b) = a' ++ apostrophe ++ b' ∧
    GetSynonyms selfResolver sched "I can't stop.".toList = "I can't stop.".toList ∧
    GetSynonyms canMay sched "I can't stop.".toList = "I may't stop.".toList := by
  have hskip : (isPunctuation apostrophe || apostrophe == apostrophe) = true := by decide
  refine ⟨?_, appendResult_apostrophe, ?_, ?_, ?_, ?_⟩
  · intro i
    rw [worker_skip r i apostrophe hskip]
    exact ⟨rfl, rfl⟩
  · intro st w hw
    rw [appendResult_apostrophe, appendResult_word _ w hw]
    simp
  · have hoa : outcome r a = a' := by
      rw [outcome_word r a (isPunctuation_false_of_letters a hal), hra]; rfl
    have hob : outcome r b = b' := by
      rw [outcome_word r b (isPunctuation_false_of_letters b hbl), hrb]; rfl
    have hoc : outcome r apostrophe = apostrophe :=
      outcome_punct r _ apostrophe_isPunctuation
    rw [GetSynonyms_eq, splitPhrase_apostrophe a b ha hb hal hbl]
    simp only [List.map_cons, List.map_nil, hoa, hob, hoc]
    unfold reassemble
    simp only [List.foldl_cons, List.foldl_nil]
    rw [appendResult_word _ a' hpa, appendResult_apostrophe, appendResult_word _ b' hpb]
    simp
  · rw [GetSynonyms_eq]
    decide
  · rw [GetSynonyms_eq]
    decide

theorem apostrophe_preserved_witness :
    canMay "can".toList = some "may".toList ∧ canMay "t".toList = some "t".toList ∧
      GetSynonyms canMay Schedule.reversed "can't".toList = "may't".toList :=
  ⟨by decide, by decide,
    (apostrophe_preserved canMay Schedule.reversed "can".toList "t".toList "may".toList
      "t".toList (by decide) (by decide) (by decide) (by decide) (by decide) (by decide)
      (by decide) (by decide)).2.2.2.1⟩

end Thesaurizer
